import Mathlib

/-!
Shallow embedding of the clipboard history store in
`src/useClipboardManager.ts` (ClipBoardPro).

Modelling conventions:
* `ClipboardEntry` mirrors the `ClipboardEntry` record `{id, text, timestamp,
  pinned}`.  The opaque string id produced by `crypto.randomUUID()` is
  modelled as a `Nat` supplied by the caller of `addEntry`, and the
  `Date.now()` millisecond timestamp as a `Nat` parameter `now`.
* `MAX_HISTORY_ITEMS` (imported from `constants.ts`, not part of the store
  file) is a parameter `M : Nat` of the operations.
* The comparator `(b.pinned ? 1 : 0) - (a.pinned ? 1 : 0) || b.timestamp -
  a.timestamp` used in `loadHistory` and `saveHistory` sorts ascending by the
  comparator value; `a` precedes `b` exactly when `c(a,b) <= 0`, i.e. when
  `pinRank b < pinRank a` or (`pinRank a = pinRank b` and
  `b.timestamp <= a.timestamp`).  JavaScript `Array.prototype.sort` is
  stable, and `List.insertionSort` with that total preorder is the stable
  sort by the same comparator.
* Effectful aspects are made explicit: the `...Op` variants also return the
  list of snapshots written to `localStorage` and the notification strings
  passed to `showNotification`; the `...S` variants thread a boolean saying
  whether `localStorage.setItem` succeeds, and return the resulting
  in-memory history together with the advisory error value set by
  `saveHistory`'s catch branch.
-/

/-- JavaScript `text.trim()`: the string with leading and trailing
whitespace removed (modelled on the character list so that it reduces in
the kernel). -/
def trimText (s : String) : String :=
  String.mk (((s.data.dropWhile Char.isWhitespace).reverse.dropWhile Char.isWhitespace).reverse)

structure ClipboardEntry where
  id : Nat
  text : String
  timestamp : Nat
  pinned : Bool
deriving DecidableEq, Repr

def defaultEntry : ClipboardEntry := ⟨0, "", 0, false⟩

/-- Rank used by the sort comparator: `e.pinned ? 1 : 0`. -/
def pinRank (e : ClipboardEntry) : Nat := if e.pinned then 1 else 0

/-- `entryLE a b` holds when the comparator value of `(a, b)` is `<= 0`,
i.e. when `a` may precede `b` in the canonically sorted history. -/
def entryLE (a b : ClipboardEntry) : Prop :=
  pinRank b < pinRank a ∨ (pinRank a = pinRank b ∧ b.timestamp ≤ a.timestamp)

instance : DecidableRel entryLE := fun a b => by
  unfold entryLE; infer_instance

instance : IsTotal ClipboardEntry entryLE :=
  ⟨fun a b => by unfold entryLE; omega⟩

instance : IsTrans ClipboardEntry entryLE :=
  ⟨fun a b c hab hbc => by unfold entryLE at *; omega⟩

/-- The canonical sort
`[...h].sort((a, b) => (b.pinned ? 1 : 0) - (a.pinned ? 1 : 0) || b.timestamp - a.timestamp)`
used in `loadHistory` (line 24) and `saveHistory` (line 41). -/
def sortHistory (l : List ClipboardEntry) : List ClipboardEntry :=
  List.insertionSort entryLE l

/-- History component of `saveHistory` (lines 40-49): the new in-memory
state is the sorted history, whether or not the storage write succeeds. -/
def saveHistory (updatedHistory : List ClipboardEntry) : List ClipboardEntry :=
  sortHistory updatedHistory

/-- `loadHistory` (lines 17-34): a present snapshot is re-sorted with the
canonical comparator; an absent one yields the empty history. -/
def loadHistory (stored : Option (List ClipboardEntry)) : List ClipboardEntry :=
  match stored with
  | some l => sortHistory l
  | none => []

/-- The dedup branch of `addEntry` (lines 55-64): `findIndex` of the first
entry whose `text` equals the argument; when found at index `i` the new
history is `[{...existing, timestamp: now}, ...slice(0, i), ...slice(i+1)]`,
i.e. the refreshed entry followed by the list with that occurrence removed.
`promoteFirst` returns the refreshed entry and the remainder, or `none`
when no entry has the given text. -/
def promoteFirst (now : Nat) (text : String) :
    List ClipboardEntry → Option (ClipboardEntry × List ClipboardEntry)
  | [] => none
  | e :: es =>
    if e.text = text then some ({ e with timestamp := now }, es)
    else
      match promoteFirst now text es with
      | some (p, rest) => some (p, e :: rest)
      | none => none

/-- Lines 75-82 of `addEntry`: partition into unpinned and pinned (order
preserved), truncate the unpinned part to `M` when it exceeds `M`, and
reassemble as pinned followed by unpinned. -/
def capUnpinned (M : Nat) (newHistory : List ClipboardEntry) : List ClipboardEntry :=
  let unpinnedItems := newHistory.filter (fun e => !e.pinned)
  let pinnedItems := newHistory.filter (fun e => e.pinned)
  let unpinnedCapped :=
    if M < unpinnedItems.length then unpinnedItems.take M else unpinnedItems
  pinnedItems ++ unpinnedCapped

/-- `addEntry` (lines 51-86), history component.  The guard is
`!text || text.trim() === ""`; then dedup-or-create, capping, and the final
state is the canonically sorted result installed by `saveHistory`. -/
def addEntry (M now newId : Nat) (text : String) (h : List ClipboardEntry) :
    List ClipboardEntry :=
  if text = "" ∨ trimText text = "" then h
  else
    let newHistory :=
      match promoteFirst now text h with
      | some (promoted, rest) => promoted :: rest
      | none => { id := newId, text := text, timestamp := now, pinned := false } :: h
    saveHistory (capUnpinned M newHistory)

/-- `deleteEntry` (lines 89-93), history component:
`history.filter(entry => entry.id !== id)` then `saveHistory`. -/
def deleteEntry (i : Nat) (h : List ClipboardEntry) : List ClipboardEntry :=
  saveHistory (h.filter (fun e => e.id != i))

/-- `clearHistory` (lines 95-101), history component:
`history.filter(item => item.pinned)` then `saveHistory`. -/
def clearHistory (h : List ClipboardEntry) : List ClipboardEntry :=
  saveHistory (h.filter (fun e => e.pinned))

/-- `togglePinEntry` (lines 114-126): `findIndex` of the entry with the
given id; early return when absent; otherwise the entry at that index is
replaced by `{...entry, pinned: !entry.pinned}`.  Returns the updated entry
together with the updated list, or `none` when absent. -/
def toggleFirst (i : Nat) :
    List ClipboardEntry → Option (ClipboardEntry × List ClipboardEntry)
  | [] => none
  | e :: es =>
    if e.id = i then some ({ e with pinned := !e.pinned }, { e with pinned := !e.pinned } :: es)
    else
      match toggleFirst i es with
      | some (u, rest) => some (u, e :: rest)
      | none => none

/-- `togglePinEntry` (lines 114-126), history component: no-op when the id
is absent, otherwise the updated list goes through `saveHistory`. -/
def togglePinEntry (i : Nat) (h : List ClipboardEntry) : List ClipboardEntry :=
  match toggleFirst i h with
  | none => h
  | some (_, updated) => saveHistory updated

/-- Number of entries with `pinned = false`. -/
def countUnpinned (h : List ClipboardEntry) : Nat :=
  (h.filter (fun e => !e.pinned)).length

/-- Observable outcome of one store operation: the new in-memory history,
the snapshots passed to `localStorage.setItem`, and the notification
strings passed to `showNotification`. -/
structure OpResult where
  history : List ClipboardEntry
  wrote : List (List ClipboardEntry)
  notes : List String
deriving DecidableEq, Repr

/-- `saveHistory` with its write effect: the sorted history is both the
snapshot written and the new in-memory state. -/
def saveHistoryOp (updatedHistory : List ClipboardEntry) : OpResult :=
  ⟨sortHistory updatedHistory, [sortHistory updatedHistory], []⟩

/-- `addEntry` with effects: a rejected text performs no write and emits no
notification; otherwise exactly the final history is written. -/
def addEntryOp (M now newId : Nat) (text : String) (h : List ClipboardEntry) : OpResult :=
  if text = "" ∨ trimText text = "" then ⟨h, [], []⟩
  else
    let newHistory :=
      match promoteFirst now text h with
      | some (promoted, rest) => promoted :: rest
      | none => { id := newId, text := text, timestamp := now, pinned := false } :: h
    saveHistoryOp (capUnpinned M newHistory)

/-- `deleteEntry` with effects: always writes and always shows
"Item removed from history." (line 92). -/
def deleteEntryOp (i : Nat) (h : List ClipboardEntry) : OpResult :=
  let r := saveHistoryOp (h.filter (fun e => e.id != i))
  ⟨r.history, r.wrote, ["Item removed from history."]⟩

/-- `clearHistory` with effects: always writes; notifies only when some
unpinned entry existed (`history.some(item => !item.pinned)`, line 98). -/
def clearHistoryOp (h : List ClipboardEntry) : OpResult :=
  let r := saveHistoryOp (h.filter (fun e => e.pinned))
  ⟨r.history, r.wrote,
    if h.any (fun e => !e.pinned) then ["Clipboard history cleared (pinned items remain)."]
    else []⟩

/-- `togglePinEntry` with effects: early return when the id is absent;
otherwise writes and notifies "Item pinned." / "Item unpinned." according
to the updated entry (line 125). -/
def togglePinEntryOp (i : Nat) (h : List ClipboardEntry) : OpResult :=
  match toggleFirst i h with
  | none => ⟨h, [], []⟩
  | some (updatedEntry, updated) =>
    let r := saveHistoryOp updated
    ⟨r.history, r.wrote,
      [if updatedEntry.pinned then "Item pinned." else "Item unpinned."]⟩

/-- In-memory history together with the advisory error value. -/
structure StoreState where
  history : List ClipboardEntry
  error : Option String
deriving DecidableEq, Repr

def saveFailureMsg : String := "Failed to save clipboard history. Storage might be full."

/-- `saveHistory` (lines 40-49) with the success of `localStorage.setItem`
made explicit: the in-memory state becomes the sorted history regardless,
and a failed write only sets the advisory error (catch branch, line 46). -/
def saveHistoryS (ok : Bool) (updatedHistory : List ClipboardEntry) : StoreState :=
  ⟨sortHistory updatedHistory, if ok then none else some saveFailureMsg⟩

def addEntryS (ok : Bool) (M now newId : Nat) (text : String)
    (h : List ClipboardEntry) : StoreState :=
  if text = "" ∨ trimText text = "" then ⟨h, none⟩
  else
    let newHistory :=
      match promoteFirst now text h with
      | some (promoted, rest) => promoted :: rest
      | none => { id := newId, text := text, timestamp := now, pinned := false } :: h
    saveHistoryS ok (capUnpinned M newHistory)

def deleteEntryS (ok : Bool) (i : Nat) (h : List ClipboardEntry) : StoreState :=
  saveHistoryS ok (h.filter (fun e => e.id != i))

def clearHistoryS (ok : Bool) (h : List ClipboardEntry) : StoreState :=
  saveHistoryS ok (h.filter (fun e => e.pinned))

def togglePinEntryS (ok : Bool) (i : Nat) (h : List ClipboardEntry) : StoreState :=
  match toggleFirst i h with
  | none => ⟨h, none⟩
  | some (_, updated) => saveHistoryS ok updated

/-- States of the store reachable from the empty history via the public
mutating operations; `reload` is `loadHistory` applied to a snapshot this
store instance previously saved (single-writer assumption), which is the
current history itself. -/
inductive Reachable (M : Nat) : List ClipboardEntry → Prop where
  | empty : Reachable M []
  | add (now newId : Nat) (text : String) (h : List ClipboardEntry) :
      Reachable M h → Reachable M (addEntry M now newId text h)
  | del (i : Nat) (h : List ClipboardEntry) :
      Reachable M h → Reachable M (deleteEntry i h)
  | clear (h : List ClipboardEntry) :
      Reachable M h → Reachable M (clearHistory h)
  | toggle (i : Nat) (h : List ClipboardEntry) :
      Reachable M h → Reachable M (togglePinEntry i h)
  | reload (h : List ClipboardEntry) :
      Reachable M h → Reachable M (loadHistory (some h))

/-! ### Concrete traces used as test vectors (MAX_HISTORY_ITEMS = 3) -/

/-- Trace for the capacity question: add "a", pin it, add "b", "c", "d"
(three unpinned, at the cap), then unpin "a". -/
def capTraceState : List ClipboardEntry :=
  togglePinEntry 1 (addEntry 3 4 4 "d" (addEntry 3 3 3 "c"
    (addEntry 3 2 2 "b" (togglePinEntry 1 (addEntry 3 1 1 "a" [])))))

/-- Trace of spec scenario 2: add "a", "b", "c", pin "a", add "d", "e",
each add at a strictly later timestamp; "a" has id 1. -/
def scenario2State : List ClipboardEntry :=
  addEntry 3 5 5 "e" (addEntry 3 4 4 "d" (togglePinEntry 1
    (addEntry 3 3 3 "c" (addEntry 3 2 2 "b" (addEntry 3 1 1 "a" [])))))

/-- Two unpinned adds: the state ["b" at time 2, "a" at time 1]. -/
def twoAddState : List ClipboardEntry :=
  addEntry 3 2 2 "b" (addEntry 3 1 1 "a" [])

/-! ### Basic lemmas about the canonical sort -/

lemma sortHistory_perm (l : List ClipboardEntry) : (sortHistory l).Perm l :=
  List.perm_insertionSort entryLE l

lemma sortHistory_sorted (l : List ClipboardEntry) : List.Sorted entryLE (sortHistory l) :=
  List.sorted_insertionSort entryLE l

lemma sortHistory_eq_of_sorted {l : List ClipboardEntry} (hs : List.Sorted entryLE l) :
    sortHistory l = l :=
  hs.insertionSort_eq

lemma mem_sortHistory {x : ClipboardEntry} {l : List ClipboardEntry} :
    x ∈ sortHistory l ↔ x ∈ l :=
  (sortHistory_perm l).mem_iff

lemma countUnpinned_sortHistory (l : List ClipboardEntry) :
    countUnpinned (sortHistory l) = countUnpinned l := by
  unfold countUnpinned
  exact (List.Perm.filter _ (sortHistory_perm l)).length_eq

/-! ### Lemmas about the unpinned cap -/

lemma capUnpinned_subperm (M : Nat) (l : List ClipboardEntry) :
    (capUnpinned M l).Subperm l := by
  unfold capUnpinned
  have hsub : (if M < (l.filter (fun e => !e.pinned)).length then
        (l.filter (fun e => !e.pinned)).take M else l.filter (fun e => !e.pinned)).Sublist
      (l.filter (fun e => !e.pinned)) := by
    split
    · exact List.take_sublist _ _
    · exact List.Sublist.refl _
  have h1 : (capUnpinned M l).Sublist
      (l.filter (fun e => e.pinned) ++ l.filter (fun e => !e.pinned)) := by
    unfold capUnpinned
    exact hsub.append_left _
  exact h1.subperm.trans (List.filter_append_perm _ l).subperm

lemma countUnpinned_capUnpinned_le (M : Nat) (l : List ClipboardEntry) :
    countUnpinned (capUnpinned M l) ≤ M := by
  unfold countUnpinned capUnpinned
  rw [List.filter_append]
  have h1 : (l.filter (fun e => e.pinned)).filter (fun e => !e.pinned) = [] := by
    rw [List.filter_eq_nil_iff]
    intro a ha
    simp only [List.mem_filter] at ha
    simp [ha.2]
  rw [h1]
  have h2 : ∀ u2 : List ClipboardEntry, u2.Sublist (l.filter (fun e => !e.pinned)) →
      u2.filter (fun e => !e.pinned) = u2 := by
    intro u2 hu2
    rw [List.filter_eq_self]
    intro a ha
    exact (List.mem_filter.mp (hu2.subset ha)).2
  split
  · rw [h2 _ (List.take_sublist _ _)]
    simp only [List.nil_append, List.length_take]
    omega
  · rw [h2 _ (List.Sublist.refl _)]
    simp only [List.nil_append]
    omega

lemma mem_capUnpinned_cons {M : Nat} (hM : 1 ≤ M) (x : ClipboardEntry)
    (l : List ClipboardEntry) : x ∈ capUnpinned M (x :: l) := by
  unfold capUnpinned
  rcases hx : x.pinned with _ | _
  · refine List.mem_append.mpr (Or.inr ?_)
    have hfc : (x :: l).filter (fun e => !e.pinned) = x :: l.filter (fun e => !e.pinned) := by
      simp [List.filter_cons, hx]
    rw [hfc]
    split
    · obtain ⟨m, rfl⟩ : ∃ m, M = m + 1 := ⟨M - 1, by omega⟩
      exact List.mem_cons_self x _
    · exact List.mem_cons_self x _
  · refine List.mem_append.mpr (Or.inl ?_)
    simp [List.filter_cons, hx]

/-! ### Inversion lemmas for the dedup and toggle scans -/

lemma promoteFirst_eq_none {now : Nat} {t : String} {h : List ClipboardEntry} :
    promoteFirst now t h = none ↔ ∀ e ∈ h, e.text ≠ t := by
  induction h with
  | nil => simp [promoteFirst]
  | cons a es ih =>
    unfold promoteFirst
    by_cases ha : a.text = t
    · simp [ha]
    · simp only [if_neg ha]
      cases hpf : promoteFirst now t es with
      | none => simp_all
      | some p => rcases p with ⟨p1, p2⟩; simp_all

lemma promoteFirst_eq_some {now : Nat} {t : String} {h : List ClipboardEntry}
    {p : ClipboardEntry} {rest : List ClipboardEntry}
    (hpf : promoteFirst now t h = some (p, rest)) :
    ∃ pre e suf, h = pre ++ e :: suf ∧ (∀ x ∈ pre, x.text ≠ t) ∧ e.text = t ∧
      p = { e with timestamp := now } ∧ rest = pre ++ suf := by
  induction h generalizing p rest with
  | nil => simp [promoteFirst] at hpf
  | cons a es ih =>
    unfold promoteFirst at hpf
    by_cases ha : a.text = t
    · rw [if_pos ha] at hpf
      obtain ⟨h1, h2⟩ := Prod.mk.injEq .. ▸ Option.some.injEq .. ▸ hpf
      exact ⟨[], a, es, by simp, by simp, ha, by simp_all [← h1], by simp [← h2]⟩
    · rw [if_neg ha] at hpf
      cases hes : promoteFirst now t es with
      | none => rw [hes] at hpf; exact absurd hpf (by simp)
      | some q =>
        rcases q with ⟨q1, q2⟩
        rw [hes] at hpf
        simp only [Option.some.injEq, Prod.mk.injEq] at hpf
        obtain ⟨h1, h2⟩ := hpf
        obtain ⟨pre, e, suf, heq, hpre, het, hp, hrest⟩ := ih hes
        exact ⟨a :: pre, e, suf, by simp [heq], by
            intro x hx
            rcases List.mem_cons.mp hx with rfl | hx2
            · exact ha
            · exact hpre x hx2,
          het, by simp_all, by simp [← h2, hrest]⟩

lemma toggleFirst_eq_none {i : Nat} {h : List ClipboardEntry} :
    toggleFirst i h = none ↔ ∀ e ∈ h, e.id ≠ i := by
  induction h with
  | nil => simp [toggleFirst]
  | cons a es ih =>
    unfold toggleFirst
    by_cases ha : a.id = i
    · simp [ha]
    · simp only [if_neg ha]
      cases htf : toggleFirst i es with
      | none => simp_all
      | some p => rcases p with ⟨p1, p2⟩; simp_all

lemma toggleFirst_eq_some {i : Nat} {h : List ClipboardEntry}
    {u : ClipboardEntry} {h2 : List ClipboardEntry}
    (htf : toggleFirst i h = some (u, h2)) :
    ∃ pre e suf, h = pre ++ e :: suf ∧ (∀ x ∈ pre, x.id ≠ i) ∧ e.id = i ∧
      u = { e with pinned := !e.pinned } ∧ h2 = pre ++ u :: suf := by
  induction h generalizing u h2 with
  | nil => simp [toggleFirst] at htf
  | cons a es ih =>
    unfold toggleFirst at htf
    by_cases ha : a.id = i
    · rw [if_pos ha] at htf
      simp only [Option.some.injEq, Prod.mk.injEq] at htf
      obtain ⟨h1, h2eq⟩ := htf
      exact ⟨[], a, es, by simp, by simp, ha, h1.symm, by simp [← h2eq, h1]⟩
    · rw [if_neg ha] at htf
      cases hes : toggleFirst i es with
      | none => rw [hes] at htf; exact absurd htf (by simp)
      | some q =>
        rcases q with ⟨q1, q2⟩
        rw [hes] at htf
        simp only [Option.some.injEq, Prod.mk.injEq] at htf
        obtain ⟨h1, h2eq⟩ := htf
        obtain ⟨pre, e, suf, heq, hpre, hei, hu, hrest⟩ := ih hes
        refine ⟨a :: pre, e, suf, by simp [heq], ?_, hei, h1 ▸ hu, by simp [← h2eq, hrest, h1]⟩
        intro x hx
        rcases List.mem_cons.mp hx with rfl | hx2
        · exact ha
        · exact hpre x hx2

lemma find?_eq_some_of_mem {α : Type} {p : α → Bool} {x : α} {l : List α}
    (hx : x ∈ l) (hpx : p x = true) (huniq : ∀ y ∈ l, p y = true → y = x) :
    l.find? p = some x := by
  induction l with
  | nil => simp at hx
  | cons a es ih =>
    by_cases hpa : p a = true
    · have hax : a = x := huniq a (List.mem_cons_self a es) hpa
      rw [List.find?_cons_of_pos es hpa, hax]
    · have hxes : x ∈ es := by
        rcases List.mem_cons.mp hx with rfl | h2
        · exact absurd hpx hpa
        · exact h2
      have hpa2 : p a = false := Bool.eq_false_iff.mpr hpa
      have ihr := ih hxes (fun y hy hpy => huniq y (List.mem_cons_of_mem a hy) hpy)
      simpa [List.find?_cons, hpa2] using ihr

/-! ### Facts about the pin rank -/

lemma pinRank_le_one (e : ClipboardEntry) : pinRank e ≤ 1 := by
  unfold pinRank; split <;> omega

lemma pinRank_of_pinned {e : ClipboardEntry} (h : e.pinned = true) : pinRank e = 1 := by
  simp [pinRank, h]

lemma pinRank_eq_iff {a b : ClipboardEntry} : pinRank a = pinRank b ↔ a.pinned = b.pinned := by
  cases ha : a.pinned <;> cases hb : b.pinned <;> simp [pinRank, ha, hb]

/-! ### Sortedness of reachable states -/

lemma reachable_sorted {M : Nat} {h : List ClipboardEntry} (hr : Reachable M h) :
    List.Sorted entryLE h := by
  induction hr with
  | empty => exact List.sorted_nil
  | add now newId t h0 _ ih =>
    unfold addEntry
    split
    · exact ih
    · exact sortHistory_sorted _
  | del i h0 _ ih => exact sortHistory_sorted _
  | clear h0 _ ih => exact sortHistory_sorted _
  | toggle i h0 _ ih =>
    unfold togglePinEntry
    cases htf : toggleFirst i h0 with
    | none => exact ih
    | some p => exact sortHistory_sorted _
  | reload h0 _ ih => exact sortHistory_sorted _

/-! ### Uniqueness of texts -/

lemma nodup_map_of_subperm {α β : Type} (f : α → β) {l₁ l₂ : List α}
    (hsp : l₁.Subperm l₂) (hnd : (l₂.map f).Nodup) : (l₁.map f).Nodup := by
  obtain ⟨l, hperm, hsub⟩ := hsp
  exact ((hperm.map f).nodup_iff).mp (List.Nodup.sublist (hsub.map f) hnd)

lemma texts_nodup_sortHistory {l : List ClipboardEntry}
    (hl : (l.map (fun e => e.text)).Nodup) :
    ((sortHistory l).map (fun e => e.text)).Nodup :=
  (((sortHistory_perm l).map (fun e => e.text)).nodup_iff).mpr hl

lemma texts_nodup_filter (p : ClipboardEntry → Bool) {h : List ClipboardEntry}
    (hnd : (h.map (fun e => e.text)).Nodup) :
    ((h.filter p).map (fun e => e.text)).Nodup :=
  nodup_map_of_subperm _ (h.filter_sublist).subperm hnd

lemma addEntry_texts_nodup {M now newId : Nat} {t : String} {h : List ClipboardEntry}
    (hnd : (h.map (fun e => e.text)).Nodup) :
    ((addEntry M now newId t h).map (fun e => e.text)).Nodup := by
  unfold addEntry
  split
  · exact hnd
  · cases hpf : promoteFirst now t h with
    | none =>
      have hnotin : ∀ x ∈ h, x.text ≠ t := promoteFirst_eq_none.mp hpf
      have hnh : ((({ id := newId, text := t, timestamp := now, pinned := false } :
          ClipboardEntry) :: h).map (fun e => e.text)).Nodup := by
        simp only [List.map_cons, List.nodup_cons]
        refine ⟨?_, hnd⟩
        intro hmem
        obtain ⟨a, ha, hat⟩ := List.mem_map.mp hmem
        exact hnotin a ha hat
      exact texts_nodup_sortHistory (nodup_map_of_subperm _ (capUnpinned_subperm _ _) hnh)
    | some q =>
      rcases q with ⟨p, rest⟩
      obtain ⟨pre, e, suf, heq, _, het, hp, hrest⟩ := promoteFirst_eq_some hpf
      have hperm : ((p :: rest).map (fun x => x.text)).Perm (h.map (fun x => x.text)) := by
        subst heq hrest hp
        simp only [List.map_cons, List.map_append]
        exact (List.perm_middle).symm
      have hnh : ((p :: rest).map (fun x => x.text)).Nodup := hperm.nodup_iff.mpr hnd
      exact texts_nodup_sortHistory (nodup_map_of_subperm _ (capUnpinned_subperm _ _) hnh)

lemma togglePinEntry_texts_eq {i : Nat} {h : List ClipboardEntry} :
    ∃ l, (togglePinEntry i h).Perm l ∧ l.map (fun e => e.text) = h.map (fun e => e.text) := by
  unfold togglePinEntry
  cases htf : toggleFirst i h with
  | none => exact ⟨h, List.Perm.refl h, rfl⟩
  | some q =>
    rcases q with ⟨u, h2⟩
    obtain ⟨pre, e, suf, heq, _, _, hu, hh2⟩ := toggleFirst_eq_some htf
    refine ⟨h2, sortHistory_perm h2, ?_⟩
    subst heq hh2 hu
    simp

/-- Claim C9: every state reachable via the store operations has pairwise
distinct entry texts, including states produced by reloading a snapshot the
store saved. -/
theorem claim_C9 (M : Nat) (h : List ClipboardEntry) (hr : Reachable M h) :
    (h.map (fun e => e.text)).Nodup := by
  induction hr with
  | empty => simp
  | add now newId t h0 _ ih => exact addEntry_texts_nodup ih
  | del i h0 _ ih => exact texts_nodup_sortHistory (texts_nodup_filter _ ih)
  | clear h0 _ ih => exact texts_nodup_sortHistory (texts_nodup_filter _ ih)
  | toggle i h0 _ ih =>
    obtain ⟨l, hperm, heq⟩ := togglePinEntry_texts_eq (i := i) (h := h0)
    exact ((hperm.map (fun e => e.text)).nodup_iff).mpr (heq ▸ ih)
  | reload h0 _ ih => exact texts_nodup_sortHistory ih

/-- Witness for C9 at a concrete trace. -/
theorem claim_C9_witness :
    ((addEntry 3 1 1 "a" ([] : List ClipboardEntry)).map (fun e => e.text)).Nodup :=
  claim_C9 3 _ (Reachable.add 1 1 "a" [] Reachable.empty)

/-- Claim C3: in every reachable state, pinned entries precede unpinned
ones, and within equal pin status timestamps are non-increasing along the
sequence (ties keep the stable order). -/
theorem claim_C3 (M : Nat) (h : List ClipboardEntry) (hr : Reachable M h)
    (i j : Nat) (hij : i < j) (hj : j < h.length) :
    ((h.getD j defaultEntry).pinned = true → (h.getD i defaultEntry).pinned = true) ∧
    ((h.getD i defaultEntry).pinned = (h.getD j defaultEntry).pinned →
      (h.getD j defaultEntry).timestamp ≤ (h.getD i defaultEntry).timestamp) := by
  have hi : i < h.length := lt_trans hij hj
  have hrel := (List.pairwise_iff_getElem.mp (reachable_sorted hr)) i j hi hj hij
  rw [List.getD_eq_getElem _ _ hi, List.getD_eq_getElem _ _ hj]
  constructor
  · intro hpj
    rcases hrel with h1 | h2
    · have ha := pinRank_le_one h[i]
      have hb := pinRank_of_pinned hpj
      omega
    · exact (pinRank_eq_iff.mp h2.1).trans hpj
  · intro hpp
    rcases hrel with h1 | h2
    · have := pinRank_eq_iff.mpr hpp
      omega
    · exact h2.2

/-- Witness for C3 on the concrete two-add trace. -/
theorem claim_C3_witness :
    (((twoAddState.getD 1 defaultEntry).pinned = true →
        (twoAddState.getD 0 defaultEntry).pinned = true) ∧
      ((twoAddState.getD 0 defaultEntry).pinned = (twoAddState.getD 1 defaultEntry).pinned →
        (twoAddState.getD 1 defaultEntry).timestamp ≤
          (twoAddState.getD 0 defaultEntry).timestamp)) :=
  claim_C3 3 twoAddState
    (Reachable.add 2 2 "b" _ (Reachable.add 1 1 "a" [] Reachable.empty))
    0 1 (by decide) (by decide)

/-! ### Capacity -/

lemma countUnpinned_filter_le (p : ClipboardEntry → Bool) (h : List ClipboardEntry) :
    countUnpinned (h.filter p) ≤ countUnpinned h := by
  unfold countUnpinned
  exact (List.Sublist.filter _ (h.filter_sublist)).length_le

lemma trimText_empty : trimText "" = "" := rfl

/-- Claim C1 (amended): a non-rejected `addEntry` always leaves at most
`MAX_HISTORY_ITEMS` unpinned entries, `clearHistory` leaves none,
`deleteEntry` never increases the unpinned count, but `togglePinEntry` can
increase it by one, so the unpinned count can exceed the cap only through
unpins performed since the last `addEntry` or `clearHistory`. -/
theorem claim_C1_amended (M now newId i : Nat) (t : String) (h : List ClipboardEntry) :
    countUnpinned (addEntry M now newId t h) ≤ max M (countUnpinned h)
    ∧ (trimText t ≠ "" → countUnpinned (addEntry M now newId t h) ≤ M)
    ∧ countUnpinned (deleteEntry i h) ≤ countUnpinned h
    ∧ countUnpinned (clearHistory h) = 0
    ∧ countUnpinned (togglePinEntry i h) ≤ countUnpinned h + 1 := by
  have hadd : ∀ htrim : ¬(t = "" ∨ trimText t = ""),
      countUnpinned (addEntry M now newId t h) ≤ M := by
    intro htrim
    unfold addEntry
    rw [if_neg htrim]
    calc countUnpinned (saveHistory (capUnpinned M _)) = countUnpinned (capUnpinned M _) :=
          countUnpinned_sortHistory _
      _ ≤ M := countUnpinned_capUnpinned_le M _
  refine ⟨?_, ?_, ?_, ?_, ?_⟩
  · by_cases hg : t = "" ∨ trimText t = ""
    · unfold addEntry
      rw [if_pos hg]
      exact le_max_right _ _
    · exact le_trans (hadd hg) (le_max_left _ _)
  · intro htne
    refine hadd ?_
    rintro (rfl | hte)
    · exact htne trimText_empty
    · exact htne hte
  · calc countUnpinned (deleteEntry i h)
        = countUnpinned (h.filter (fun e => e.id != i)) := countUnpinned_sortHistory _
      _ ≤ countUnpinned h := countUnpinned_filter_le _ h
  · have h0 : countUnpinned (h.filter (fun e => e.pinned)) = 0 := by
      unfold countUnpinned
      rw [List.filter_filter]
      have : ∀ a ∈ h, ¬((!a.pinned) && a.pinned) = true := by
        intro a _
        cases a.pinned <;> simp
      rw [List.length_eq_zero]
      exact List.filter_eq_nil_iff.mpr this
    calc countUnpinned (clearHistory h)
        = countUnpinned (h.filter (fun e => e.pinned)) := countUnpinned_sortHistory _
      _ = 0 := h0
  · unfold togglePinEntry
    cases htf : toggleFirst i h with
    | none =>
      show countUnpinned h ≤ countUnpinned h + 1
      omega
    | some q =>
      rcases q with ⟨u, h2⟩
      obtain ⟨pre, e, suf, heq, _, _, hu, hh2⟩ := toggleFirst_eq_some htf
      show countUnpinned (saveHistory h2) ≤ countUnpinned h + 1
      have hsave : countUnpinned (saveHistory h2) = countUnpinned h2 :=
        countUnpinned_sortHistory _
      rw [hsave, heq, hh2]
      unfold countUnpinned
      simp only [List.filter_append, List.filter_cons, List.length_append]
      cases hue : u.pinned <;> cases hee : e.pinned <;>
        simp only [hue, hee, Bool.not_true, Bool.not_false, if_true, if_false] <;>
        simp <;> omega

/-- Witness for the amended capacity claim at a concrete input. -/
theorem claim_C1_amended_witness :
    trimText "a" ≠ "" ∧ countUnpinned (addEntry 3 1 1 "a" []) ≤ 3 :=
  ⟨by decide, (claim_C1_amended 3 1 1 0 "a" []).2.1 (by decide)⟩

/-- Counterexample to C1 as stated: with `MAX_HISTORY_ITEMS = 3`, the trace
add "a"; pin "a"; add "b", "c", "d"; unpin "a" reaches a state with four
unpinned entries, exceeding the cap. -/
theorem claim_C1_counterexample :
    Reachable 3 capTraceState ∧ 3 < countUnpinned capTraceState := by
  constructor
  · unfold capTraceState
    exact Reachable.toggle 1 _ (Reachable.add 4 4 "d" _ (Reachable.add 3 3 "c" _
      (Reachable.add 2 2 "b" _ (Reachable.toggle 1 _
        (Reachable.add 1 1 "a" [] Reachable.empty)))))
  · decide

/-- Counterexample to C2 as stated: on the scenario trace the final texts
are not "a", "e", "d", "b"; the entry evicted by the last add is "b" (the
oldest unpinned entry), not "c". -/
theorem claim_C2_counterexample :
    scenario2State.map (fun e => e.text) ≠ ["a", "e", "d", "b"] := by
  decide

/-- Amended C2: the trace yields "a" (pinned, timestamp 1), then "e", "d",
"c" unpinned in timestamp-descending order — "b" is the evicted entry —
and this state is reachable. -/
theorem claim_C2_amended :
    scenario2State =
      [⟨1, "a", 1, true⟩, ⟨5, "e", 5, false⟩, ⟨4, "d", 4, false⟩, ⟨3, "c", 3, false⟩]
    ∧ Reachable 3 scenario2State := by
  constructor
  · decide
  · unfold scenario2State
    exact Reachable.add 5 5 "e" _ (Reachable.add 4 4 "d" _ (Reachable.toggle 1 _
      (Reachable.add 3 3 "c" _ (Reachable.add 2 2 "b" _
        (Reachable.add 1 1 "a" [] Reachable.empty)))))

/-! ### Dedup behaviour of addEntry -/

/-- Claim C4: re-adding existing text keeps exactly one entry with that
text, preserving its id and pinned flag while refreshing the timestamp,
and creates no new entry. -/
theorem claim_C4 (M now newId : Nat) (t : String) (E : ClipboardEntry)
    (h : List ClipboardEntry) (hM : 1 ≤ M)
    (hnd : (h.map (fun e => e.text)).Nodup) (hE : E ∈ h) (ht : E.text = t)
    (htw : trimText t ≠ "") :
    { E with timestamp := now } ∈ addEntry M now newId t h
    ∧ ((addEntry M now newId t h).map (fun e => e.text)).count t = 1
    ∧ ∀ x ∈ addEntry M now newId t h, x = { E with timestamp := now } ∨ x ∈ h := by
  have hguard : ¬(t = "" ∨ trimText t = "") := by
    rintro (rfl | hte)
    · exact htw trimText_empty
    · exact htw hte
  cases hpf : promoteFirst now t h with
  | none => exact absurd ht (promoteFirst_eq_none.mp hpf E hE)
  | some q =>
    rcases q with ⟨p, rest⟩
    obtain ⟨pre, e, suf, heq, hpre, het, hp, hrest⟩ := promoteFirst_eq_some hpf
    have heE : e = E := by
      have hnd2 := hnd
      rw [heq] at hnd2
      simp only [List.map_append, List.map_cons] at hnd2
      have hsufnd := List.Nodup.of_append_right hnd2
      have hnotsuf : e.text ∉ List.map (fun x => x.text) suf := (List.nodup_cons.mp hsufnd).1
      rw [heq] at hE
      rcases List.mem_append.mp hE with hEpre | hEcons
      · exact absurd ht (hpre E hEpre)
      · rcases List.mem_cons.mp hEcons with rfl | hEsuf
        · rfl
        · exact absurd (List.mem_map.mpr ⟨E, hEsuf, ht.trans het.symm⟩) hnotsuf
    subst heE
    have haddeq : addEntry M now newId t h = saveHistory (capUnpinned M (p :: rest)) := by
      unfold addEntry
      rw [if_neg hguard, hpf]
    have hperm : ((p :: rest).map (fun x => x.text)).Perm (h.map (fun x => x.text)) := by
      rw [heq, hrest, hp]
      simp only [List.map_cons, List.map_append]
      exact (List.perm_middle).symm
    have hnh : ((p :: rest).map (fun x => x.text)).Nodup := hperm.nodup_iff.mpr hnd
    have hmem : { e with timestamp := now } ∈ addEntry M now newId t h := by
      rw [haddeq]
      show { e with timestamp := now } ∈ sortHistory (capUnpinned M (p :: rest))
      exact mem_sortHistory.mpr (hp ▸ mem_capUnpinned_cons hM p rest)
    refine ⟨hmem, ?_, ?_⟩
    · have hndres : ((addEntry M now newId t h).map (fun x => x.text)).Nodup := by
        rw [haddeq]
        exact texts_nodup_sortHistory (nodup_map_of_subperm _ (capUnpinned_subperm _ _) hnh)
      refine List.count_eq_one_of_mem hndres ?_
      exact List.mem_map.mpr ⟨{ e with timestamp := now }, hmem, het⟩
    · intro x hx
      rw [haddeq] at hx
      have hx2 : x ∈ p :: rest := (capUnpinned_subperm M _).subset (mem_sortHistory.mp hx)
      rcases List.mem_cons.mp hx2 with rfl | hx3
      · exact Or.inl hp
      · refine Or.inr ?_
        rw [hrest] at hx3
        rw [heq]
        rcases List.mem_append.mp hx3 with hx4 | hx4
        · exact List.mem_append.mpr (Or.inl hx4)
        · exact List.mem_append.mpr (Or.inr (List.mem_cons_of_mem _ hx4))

/-- Witness for C4: re-adding "a" on a one-entry pinned history. -/
theorem claim_C4_witness :
    (⟨7, "a", 2, true⟩ : ClipboardEntry) ∈ addEntry 3 2 9 "a" [⟨7, "a", 1, true⟩]
    ∧ ((addEntry 3 2 9 "a" [⟨7, "a", 1, true⟩]).map (fun e => e.text)).count "a" = 1 :=
  have hc := claim_C4 3 2 9 "a" ⟨7, "a", 1, true⟩ [⟨7, "a", 1, true⟩]
    (by decide) (by decide) (by decide) rfl (by decide)
  ⟨hc.1, hc.2.1⟩

/-! ### Rejection of blank text -/

/-- Claim C5: an empty or whitespace-only text leaves the history exactly
unchanged, with no persistence write and no notification. -/
theorem claim_C5 (M now newId : Nat) (t : String) (h : List ClipboardEntry)
    (hw : trimText t = "") :
    addEntryOp M now newId t h = ⟨h, [], []⟩ ∧ addEntry M now newId t h = h := by
  unfold addEntryOp addEntry
  rw [if_pos (Or.inr hw), if_pos (Or.inr hw)]
  exact ⟨rfl, rfl⟩

/-- Witness for C5 with a whitespace-only text. -/
theorem claim_C5_witness :
    trimText "  " = ""
    ∧ addEntryOp 3 9 9 "  " [⟨1, "x", 1, false⟩] = ⟨[⟨1, "x", 1, false⟩], [], []⟩ :=
  ⟨by decide, (claim_C5 3 9 9 "  " [⟨1, "x", 1, false⟩] (by decide)).1⟩

/-! ### Persistence write policy -/

/-- Claim C6: every mutating operation computes its new history fully in
memory before the write, installs it whether or not the write succeeds
(the resulting history does not depend on the success flag), and a failed
write only sets the advisory error message; the snapshot written is
exactly the final history. -/
theorem claim_C6 (ok : Bool) (M now newId i : Nat) (t : String)
    (h u : List ClipboardEntry) :
    (addEntryS ok M now newId t h).history = addEntry M now newId t h
    ∧ (deleteEntryS ok i h).history = deleteEntry i h
    ∧ (clearHistoryS ok h).history = clearHistory h
    ∧ (togglePinEntryS ok i h).history = togglePinEntry i h
    ∧ (saveHistoryS ok u).history = saveHistory u
    ∧ ((saveHistoryS ok u).error = none ↔ ok = true)
    ∧ (saveHistoryS false u).error = some saveFailureMsg
    ∧ (deleteEntryOp i h).wrote = [(deleteEntryOp i h).history]
    ∧ (clearHistoryOp h).wrote = [(clearHistoryOp h).history]
    ∧ (¬(t = "" ∨ trimText t = "") →
        (addEntryOp M now newId t h).wrote = [(addEntryOp M now newId t h).history])
    ∧ ∀ w ∈ (togglePinEntryOp i h).wrote, w = (togglePinEntryOp i h).history := by
  refine ⟨?_, rfl, rfl, ?_, rfl, ?_, rfl, rfl, rfl, ?_, ?_⟩
  · unfold addEntryS addEntry
    split
    · rfl
    · rfl
  · unfold togglePinEntryS togglePinEntry
    cases htf : toggleFirst i h with
    | none => rfl
    | some q => rfl
  · cases ok <;> simp [saveHistoryS]
  · intro hg
    unfold addEntryOp
    rw [if_neg hg]
    rfl
  · intro w hw
    unfold togglePinEntryOp at hw ⊢
    cases htf : toggleFirst i h with
    | none =>
      rw [htf] at hw
      simp at hw
    | some q =>
      rcases q with ⟨ue, upd⟩
      rw [htf] at hw
      simp only [saveHistoryOp, List.mem_singleton] at hw
      rw [hw]
      rfl

/-- Witness for C6: a non-blank add writes exactly its final history. -/
theorem claim_C6_witness :
    ¬(("a" : String) = "" ∨ trimText "a" = "")
    ∧ (addEntryOp 3 1 1 "a" []).wrote = [(addEntryOp 3 1 1 "a" []).history] :=
  ⟨by decide, (claim_C6 false 3 1 1 0 "a" [] []).2.2.2.2.2.2.2.2.2.1 (by decide)⟩

/-! ### clearHistory -/

/-- Claim C7: clearing retains exactly the pinned entries, each unchanged,
and notifies if and only if an unpinned entry existed. -/
theorem claim_C7 (h : List ClipboardEntry) :
    (clearHistoryOp h).history.Perm (h.filter (fun e => e.pinned))
    ∧ ((clearHistoryOp h).notes ≠ [] ↔ ∃ e ∈ h, e.pinned = false) := by
  constructor
  · show (sortHistory (h.filter (fun e => e.pinned))).Perm (h.filter (fun e => e.pinned))
    exact sortHistory_perm _
  · show (if h.any (fun e => !e.pinned) then
        ["Clipboard history cleared (pinned items remain)."] else ([] : List String)) ≠ []
      ↔ ∃ e ∈ h, e.pinned = false
    by_cases hany : h.any (fun e => !e.pinned) = true
    · rw [if_pos hany]
      simp only [ne_eq, List.cons_ne_nil, not_false_eq_true, true_iff]
      obtain ⟨x, hx, hpx⟩ := List.any_eq_true.mp hany
      exact ⟨x, hx, Bool.not_eq_true' x.pinned ▸ hpx⟩
    · rw [if_neg hany]
      simp only [ne_eq, not_true_eq_false, false_iff]
      rintro ⟨x, hx, hpx⟩
      exact hany (List.any_eq_true.mpr ⟨x, hx, (Bool.not_eq_true' x.pinned).symm ▸ hpx⟩)

/-! ### togglePinEntry -/

lemma toggleFirst_of_mem {i : Nat} {h : List ClipboardEntry} {E : ClipboardEntry}
    (hnd : (h.map (fun e => e.id)).Nodup) (hE : E ∈ h) (hid : E.id = i) :
    ∃ pre suf, h = pre ++ E :: suf ∧ (∀ x ∈ pre, x.id ≠ i)
      ∧ toggleFirst i h =
          some ({ E with pinned := !E.pinned }, pre ++ { E with pinned := !E.pinned } :: suf) := by
  cases htf : toggleFirst i h with
  | none => exact absurd hid (toggleFirst_eq_none.mp htf E hE)
  | some q =>
    rcases q with ⟨u, h2⟩
    obtain ⟨pre, e, suf, heq, hpre, hei, hu, hh2⟩ := toggleFirst_eq_some htf
    have heE : e = E := by
      have hnd2 := hnd
      rw [heq] at hnd2
      simp only [List.map_append, List.map_cons] at hnd2
      have hsufnd := List.Nodup.of_append_right hnd2
      have hnotsuf : e.id ∉ List.map (fun x => x.id) suf := (List.nodup_cons.mp hsufnd).1
      rw [heq] at hE
      rcases List.mem_append.mp hE with hEpre | hEcons
      · exact absurd hid (hpre E hEpre)
      · rcases List.mem_cons.mp hEcons with rfl | hEsuf
        · rfl
        · exact absurd (List.mem_map.mpr ⟨E, hEsuf, hid.trans hei.symm⟩) hnotsuf
    subst heE
    exact ⟨pre, suf, heq, hpre, by rw [hu] at hh2 ⊢; rw [hh2]⟩

lemma togglePin_found {i : Nat} {h : List ClipboardEntry} {E : ClipboardEntry}
    (hnd : (h.map (fun e => e.id)).Nodup) (hE : E ∈ h) (hid : E.id = i) :
    (togglePinEntry i h).find? (fun e => e.id == i) = some { E with pinned := !E.pinned }
    ∧ ((togglePinEntry i h).map (fun e => e.id)).Nodup
    ∧ { E with pinned := !E.pinned } ∈ togglePinEntry i h
    ∧ (togglePinEntry i h).length = h.length
    ∧ ∀ x ∈ togglePinEntry i h, x.id ≠ i → x ∈ h := by
  obtain ⟨pre, suf, heq, hpre, htf⟩ := toggleFirst_of_mem hnd hE hid
  have hres : togglePinEntry i h =
      sortHistory (pre ++ { E with pinned := !E.pinned } :: suf) := by
    unfold togglePinEntry
    rw [htf]
    rfl
  have hperm : (togglePinEntry i h).Perm (pre ++ { E with pinned := !E.pinned } :: suf) := by
    rw [hres]; exact sortHistory_perm _
  have hids : (pre ++ { E with pinned := !E.pinned } :: suf).map (fun e => e.id) =
      h.map (fun e => e.id) := by
    rw [heq]; simp
  have hndres : ((togglePinEntry i h).map (fun e => e.id)).Nodup :=
    ((hperm.map (fun e => e.id)).nodup_iff).mpr (hids ▸ hnd)
  have hmem : { E with pinned := !E.pinned } ∈ togglePinEntry i h :=
    hperm.mem_iff.mpr (List.mem_append.mpr (Or.inr (List.mem_cons_self _ _)))
  have hsufid : E.id ∉ List.map (fun x => x.id) suf := by
    have hnd2 := hnd
    rw [heq] at hnd2
    simp only [List.map_append, List.map_cons] at hnd2
    exact (List.nodup_cons.mp (List.Nodup.of_append_right hnd2)).1
  have huniq : ∀ y ∈ togglePinEntry i h, (y.id == i) = true → y = { E with pinned := !E.pinned } := by
    intro y hy hyi
    have hyi2 : y.id = i := by simpa using hyi
    rcases List.mem_append.mp (hperm.mem_iff.mp hy) with hy2 | hy2
    · exact absurd hyi2 (hpre y hy2)
    · rcases List.mem_cons.mp hy2 with rfl | hy3
      · rfl
      · exact absurd (List.mem_map.mpr ⟨y, hy3, hyi2.trans hid.symm⟩) hsufid
  refine ⟨?_, hndres, hmem, ?_, ?_⟩
  · exact find?_eq_some_of_mem hmem (by simpa using hid) huniq
  · rw [hperm.length_eq, heq]
    simp
  · intro x hx hxi
    rcases List.mem_append.mp (hperm.mem_iff.mp hx) with hx2 | hx2
    · rw [heq]
      exact List.mem_append.mpr (Or.inl hx2)
    · rcases List.mem_cons.mp hx2 with rfl | hx3
      · exact absurd hid hxi
      · rw [heq]
        exact List.mem_append.mpr (Or.inr (List.mem_cons_of_mem _ hx3))

/-- Claim C8: toggling flips only the pinned flag of the entry with the
given id (timestamp, id and text unchanged), toggling twice restores the
original entry with its timestamp untouched, and toggling an absent id is
a complete no-op (no write, no notification). -/
theorem claim_C8 (i : Nat) (h : List ClipboardEntry) :
    ((∀ e ∈ h, e.id ≠ i) → togglePinEntryOp i h = ⟨h, [], []⟩)
    ∧ ∀ E, (h.map (fun e => e.id)).Nodup → E ∈ h → E.id = i →
        ((togglePinEntry i h).find? (fun e => e.id == i) = some { E with pinned := !E.pinned }
        ∧ (togglePinEntry i (togglePinEntry i h)).find? (fun e => e.id == i) = some E
        ∧ (togglePinEntry i h).length = h.length
        ∧ ∀ x ∈ togglePinEntry i h, x.id ≠ i → x ∈ h) := by
  constructor
  · intro habs
    unfold togglePinEntryOp
    rw [toggleFirst_eq_none.mpr habs]
  · intro E hnd hE hid
    obtain ⟨hfind1, hnd1, hmem1, hlen1, hothers1⟩ := togglePin_found hnd hE hid
    have hid1 : ({ E with pinned := !E.pinned } : ClipboardEntry).id = i := hid
    obtain ⟨hfind2, _, _, _, _⟩ := togglePin_found hnd1 hmem1 hid1
    have hEE : ({ { E with pinned := !E.pinned } with pinned :=
        !({ E with pinned := !E.pinned } : ClipboardEntry).pinned } : ClipboardEntry) = E := by
      cases E
      simp
    refine ⟨hfind1, ?_, hlen1, hothers1⟩
    rw [hEE] at hfind2
    exact hfind2

/-- Witness for C8 on a one-entry history. -/
theorem claim_C8_witness :
    (togglePinEntry 1 [⟨1, "x", 5, false⟩]).find? (fun e => e.id == 1) = some ⟨1, "x", 5, true⟩
    ∧ (togglePinEntry 1 (togglePinEntry 1 [⟨1, "x", 5, false⟩])).find? (fun e => e.id == 1) =
        some ⟨1, "x", 5, false⟩ :=
  have hc := (claim_C8 1 [⟨1, "x", 5, false⟩]).2 ⟨1, "x", 5, false⟩ (by decide) (by decide) rfl
  ⟨hc.1, hc.2.1⟩

/-! ### deleteEntry with an absent id -/

/-- Claim C10: deleting an absent id leaves every entry unchanged (the
resulting history is the same list once the state is canonically sorted),
yet still writes the unchanged history and still notifies. -/
theorem claim_C10 (i : Nat) (h : List ClipboardEntry) (habs : ∀ e ∈ h, e.id ≠ i) :
    (deleteEntryOp i h).history.Perm h
    ∧ (List.Sorted entryLE h → (deleteEntryOp i h).history = h)
    ∧ (deleteEntryOp i h).wrote = [sortHistory h]
    ∧ (deleteEntryOp i h).notes = ["Item removed from history."] := by
  have hfe : h.filter (fun e => e.id != i) = h := by
    rw [List.filter_eq_self]
    intro a ha
    exact bne_iff_ne.mpr (habs a ha)
  have hhist : (deleteEntryOp i h).history = sortHistory h := by
    show sortHistory (h.filter (fun e => e.id != i)) = sortHistory h
    rw [hfe]
  refine ⟨?_, ?_, ?_, rfl⟩
  · rw [hhist]
    exact sortHistory_perm h
  · intro hs
    rw [hhist]
    exact sortHistory_eq_of_sorted hs
  · show [sortHistory (h.filter (fun e => e.id != i))] = [sortHistory h]
    rw [hfe]

/-- Witness for C10: deleting id 1 from a history whose only entry has id 2. -/
theorem claim_C10_witness :
    (deleteEntryOp 1 [⟨2, "x", 1, false⟩]).history = [⟨2, "x", 1, false⟩]
    ∧ (deleteEntryOp 1 [⟨2, "x", 1, false⟩]).notes = ["Item removed from history."] :=
  have hc := claim_C10 1 [⟨2, "x", 1, false⟩] (by decide)
  ⟨hc.2.1 (by decide), hc.2.2.2⟩
